import Mathlib

/-!
A verification development for the `smart-promise` library: a bounded task
pool (`PromisePool` in `src/pool.ts`) together with thin aggregate
combinators (`SmartPromise.all`, `allSettled`, `sequential` in
`src/index.ts`).

The pool is embedded as a small-step state machine.  JavaScript runs
single-threaded and cooperative, so the observable behaviour of the pool is
a sequence of atomic events: an `acquire` call (which runs synchronously up
to the `await task()` suspension point) and the settlement of a running
task (which resumes `execute`'s continuation: `resolve`/`reject` followed by
`finally { this.release() }`).  We quantify over all interleavings of these
events, so every schedule the JavaScript event loop can produce is one of
the traces considered here.

Each admission is identified by the order of its `acquire` call
(`nextId`).  A task is represented by its eventual settlement outcome
`beh id : Except ε α`; how a task function's synchronous throw or returned
promise collapses to that single outcome is modelled separately by
`executeOutcome`, mirroring the `try`/`catch` in `execute`.  A task that
throws synchronously settles during the `acquire` call itself; in the
machine this is the trace that performs the settle event immediately after
the acquire event, so those schedules are also covered.
-/

/-- A JavaScript `number` used as a concurrency limit: either a finite
integer or `Infinity` (the constructor's default). -/
inductive JSNum where
  | fin : Int → JSNum
  | inf : JSNum
deriving DecidableEq

/-- The comparison `this.running < this.limit` from the source, where
`running` is a non-negative count and `limit` may be `Infinity`. -/
def ltLim (r : Nat) : JSNum → Bool
  | .inf => true
  | .fin n => decide ((r : Int) < n)

instance {ε α : Type} [DecidableEq ε] [DecidableEq α] : DecidableEq (Except ε α) :=
  fun x y =>
    match x, y with
    | .ok a, .ok b =>
      if h : a = b then isTrue (congrArg Except.ok h)
      else isFalse (fun hh => h (Except.ok.inj hh))
    | .error a, .error b =>
      if h : a = b then isTrue (congrArg Except.error h)
      else isFalse (fun hh => h (Except.error.inj hh))
    | .ok _, .error _ => isFalse (fun hh => Except.noConfusion hh)
    | .error _, .ok _ => isFalse (fun hh => Except.noConfusion hh)

/-- What a task function does when invoked (`task()` in `execute`):
it may throw synchronously, or return a promise that eventually settles
with an outcome. -/
inductive TaskBeh (ε α : Type) where
  | throws (e : ε)
  | returns (o : Except ε α)
deriving DecidableEq

/-- The single settlement outcome that `execute`'s `try`/`catch` forwards to
the admission's result promise: `resolve(result)` on fulfilment,
`reject(error)` both when the awaited promise rejects and when `task()`
throws synchronously (an exception before the first `await` is caught by
the same `try`/`catch`). -/
def executeOutcome : TaskBeh ε α → Except ε α
  | .throws e => .error e
  | .returns (.ok v) => .ok v
  | .returns (.error e) => .error e

/-- State of one `PromisePool` instance (`src/pool.ts`).

The source keeps a bare counter `running`; here `runSet` lists the ids of
the admissions currently running, so `runSet.length` is the counter (the
`++`/`--` in the source happen exactly when an admission starts,
respectively settles).  `queue` holds the ids of the queued `execute`
thunks in order.  `channel id` is the single-assignment result promise
returned by the id-th `acquire` call (`none` = still pending).  `startLog`
records, in order, the ids whose `execute` has run (instrumentation for
stating FIFO properties; it is not source state). -/
structure Pool (ε α : Type) where
  limit : JSNum
  runSet : List Nat
  queue : List Nat
  nextId : Nat
  channel : Nat → Option (Except ε α)
  startLog : List Nat

/-- `new PromisePool(limit)`: the constructor stores the limit unvalidated;
counter 0, empty queue. -/
def mkPool (limit : JSNum) : Pool ε α :=
  ⟨limit, [], [], 0, fun _ => none, []⟩

namespace PromisePool

/-- `pool.acquire(task)`: the promise executor runs synchronously; if
`running < limit` the new admission's `execute` runs at once
(`running++` and the task is invoked), otherwise the thunk is pushed to
the tail of the queue. -/
def acquire (p : Pool ε α) : Pool ε α :=
  if ltLim p.runSet.length p.limit then
    { p with runSet := p.runSet ++ [p.nextId],
             startLog := p.startLog ++ [p.nextId],
             nextId := p.nextId + 1 }
  else
    { p with queue := p.queue ++ [p.nextId],
             nextId := p.nextId + 1 }

/-- `this.release()` (called from `execute`'s `finally`): `running--`,
then if the queue is non-empty and `running < limit`, `shift()` the head
thunk and run it (`running++`, task invoked).  `id` is the admission whose
settlement triggered the release; removing it from `runSet` is the
decrement. -/
def release (p : Pool ε α) (id : Nat) : Pool ε α :=
  let r := p.runSet.erase id
  match p.queue with
  | [] => { p with runSet := r }
  | j :: rest =>
    if ltLim r.length p.limit then
      { p with runSet := r ++ [j], queue := rest,
               startLog := p.startLog ++ [j] }
    else
      { p with runSet := r }

/-- Settlement of running admission `id` with the task's outcome `beh id`:
`execute` resumes after `await task()`, writes the outcome to the result
promise (`resolve(result)` / `reject(error)`), then runs
`finally { this.release() }`.  A settle event for an id that is not
running does not occur in the real system; it is a no-op here. -/
def settle (beh : Nat → Except ε α) (p : Pool ε α) (id : Nat) : Pool ε α :=
  if id ∈ p.runSet then
    release { p with channel := fun n => if n = id then some (beh id) else p.channel n } id
  else p

end PromisePool

/-- An observable event of the pool: an `acquire` call, or the settlement
of the id-th admission's task. -/
inductive Ev where
  | acq : Ev
  | settle : Nat → Ev
deriving DecidableEq

/-- One event step. -/
def step (beh : Nat → Except ε α) (p : Pool ε α) : Ev → Pool ε α
  | .acq => PromisePool.acquire p
  | .settle id => PromisePool.settle beh p id

/-- The pool state after a sequence of events, starting from
`new PromisePool(limit)`. -/
def run (beh : Nat → Except ε α) (limit : JSNum) (evs : List Ev) : Pool ε α :=
  evs.foldl (step beh) (mkPool limit)

/-! ## Combinator layer (`src/index.ts`) -/

/-- An entry of the input collection handed to a combinator: either an
already-started promise (represented by its eventual outcome) or a task
function. -/
inductive Inp (ε α : Type) where
  | prom (o : Except ε α)
  | fn (t : TaskBeh ε α)
deriving DecidableEq

/-- The normalisation `typeof promiseOrFn === "function" ? promiseOrFn :
() => promiseOrFn`: a bare promise becomes a thunk returning it. -/
def normalizeInput : Inp ε α → TaskBeh ε α
  | .prom o => .returns o
  | .fn t => t

/-- The settlement outcomes of the admission promises produced by
`createPooledTasks`: one per input, in input order.  (That each pooled
promise settles with exactly its task's own outcome is the forwarding
property proved over the machine below.) -/
def taskOutcomes (values : List (Inp ε α)) : List (Except ε α) :=
  values.map (fun v => executeOutcome (normalizeInput v))

/-- `createPooledTasks` builds one fresh pool and calls `pool.acquire` once
per input; this returns the resulting pool state. -/
def poolAfterCreate (c : JSNum) (values : List (Inp ε α)) : Pool ε α :=
  values.foldl (fun p _ => PromisePool.acquire p) (mkPool c)

/-- The first rejection reason observed when the promises with outcomes
`outs` settle in the index order `order` (`none` when no rejection is
observed). -/
def firstRejection (outs : List (Except ε α)) (order : List Nat) : Option ε :=
  order.findSome? (fun i =>
    match outs[i]? with
    | some (Except.error e) => some e
    | _ => none)

/-- Native `Promise.all` semantics over the settled outcomes: `order` is
the sequence of indices in completion order; the first rejection observed
in that order rejects the combined promise with the same reason, and if
all fulfil the combined promise fulfils with the values in input order. -/
def promiseAll (outs : List (Except ε α)) (order : List Nat) : Except ε (List α) :=
  match firstRejection outs order with
  | some e => .error e
  | none => outs.mapM (fun o => o)

/-- A `PromiseSettledResult`. -/
inductive Settled (ε α : Type) where
  | fulfilled (v : α)
  | rejected (e : ε)
deriving DecidableEq

/-- How `Promise.allSettled` tags one settled outcome:
`{status: "fulfilled", value}` or `{status: "rejected", reason}`. -/
def toSettled : Except ε α → Settled ε α
  | .ok v => .fulfilled v
  | .error e => .rejected e

/-- Native `Promise.allSettled` semantics: always fulfils, with one tagged
outcome per input in input order, regardless of completion order. -/
def promiseAllSettled (outs : List (Except ε α)) : Except ε (List (Settled ε α)) :=
  .ok (outs.map toSettled)

namespace SmartPromise

/-- `SmartPromise.all(values, options)`: `Promise.all` over the pooled
admission promises, whose outcomes are the tasks' own outcomes in input
order; `order` is the completion order of those promises. -/
def all (values : List (Inp ε α)) (order : List Nat) : Except ε (List α) :=
  promiseAll (taskOutcomes values) order

/-- `SmartPromise.allSettled(values, options)`: `Promise.allSettled` over
the pooled admission promises. -/
def allSettled (values : List (Inp ε α)) : Except ε (List (Settled ε α)) :=
  promiseAllSettled (taskOutcomes values)

/-- The loop body of `SmartPromise.sequential`, threading the absolute
input index `i`: invoke the (normalised) task, `await` it; a rejection
(or synchronous throw) escapes the loop and rejects the combined promise;
on fulfilment push the result and continue.  The second component logs the
indices of the tasks that were started, in order.  (The optional
inter-task `delay` only suspends between iterations and does not affect
results or the start log, so it is not represented.) -/
def seqGo (i : Nat) : List (Inp ε α) → Except ε (List α) × List Nat
  | [] => (.ok [], [])
  | v :: rest =>
    match executeOutcome (normalizeInput v) with
    | .error e => (.error e, [i])
    | .ok r =>
      let q := seqGo (i + 1) rest
      (q.1.map (fun l => r :: l), i :: q.2)

/-- `SmartPromise.sequential(values, options)`: run the inputs one at a
time, in input order. -/
def sequential (values : List (Inp ε α)) : Except ε (List α) × List Nat :=
  seqGo 0 values

/-- `SmartPromise.setDefaultConcurrency(limit)`: stores the limit with no
validation. -/
def setDefaultConcurrency (l : JSNum) : JSNum := l

/-- `options.concurrency ?? SmartPromise.defaultConcurrency` in
`createPooledTasks`. -/
def effectiveConcurrency (opt : Option JSNum) (dflt : JSNum) : JSNum :=
  opt.getD dflt

end SmartPromise

/-- A concrete task behaviour for closed evaluations: every task fulfils
with `7`. -/
def beh0 : Nat → Except Nat Nat := fun _ => .ok 7

theorem ltLim_fin {r : Nat} {n : Int} : ltLim r (.fin n) = true ↔ (r : Int) < n := by
  simp [ltLim]

/-- The inductive invariant of a reachable pool state. -/
structure PoolInv (beh : Nat → Except ε α) (p : Pool ε α) : Prop where
  qFull : p.queue ≠ [] → ltLim p.runSet.length p.limit = false
  ordered : List.Pairwise (· < ·) (p.startLog ++ p.queue)
  fresh : ∀ i ∈ p.startLog ++ p.queue, i < p.nextId
  runFresh : ∀ i ∈ p.runSet, i < p.nextId
  runNodup : p.runSet.Nodup
  runQ : ∀ i ∈ p.runSet, i ∉ p.queue
  runStart : ∀ i ∈ p.runSet, i ∈ p.startLog
  chanRun : ∀ i ∈ p.runSet, p.channel i = none
  chanQ : ∀ i ∈ p.queue, p.channel i = none
  chanFresh : ∀ i, p.nextId ≤ i → p.channel i = none
  chanBeh : ∀ i o, p.channel i = some o → o = beh i
  bound : ∀ n, p.limit = JSNum.fin n → (p.runSet.length : Int) ≤ max n 0

theorem poolInv_mkPool (beh : Nat → Except ε α) (l : JSNum) : PoolInv beh (mkPool l) := by
  constructor <;> simp [mkPool]

theorem poolInv_acquire {beh : Nat → Except ε α} {p : Pool ε α} (h : PoolInv beh p) :
    PoolInv beh (PromisePool.acquire p) := by
  unfold PromisePool.acquire
  split
  case isTrue hg =>
    have hq : p.queue = [] := by
      by_contra hne
      have hf := h.qFull hne
      rw [hg] at hf
      exact Bool.noConfusion hf
    refine ⟨?_, ?_, ?_, ?_, ?_, ?_, ?_, ?_, ?_, ?_, ?_, ?_⟩ <;> dsimp only
    · intro hne; exact absurd hq hne
    · rw [hq, List.append_nil]
      rw [List.pairwise_append]
      have hord := h.ordered
      rw [hq, List.append_nil] at hord
      refine ⟨hord, List.pairwise_singleton _ _, ?_⟩
      intro a ha b hb
      rw [List.mem_singleton] at hb
      subst hb
      exact h.fresh a (List.mem_append_left _ ha)
    · intro i hi
      rcases List.mem_append.1 hi with hi' | hi'
      · rcases List.mem_append.1 hi' with hi'' | hi''
        · exact Nat.lt_succ_of_lt (h.fresh i (List.mem_append_left _ hi''))
        · rw [List.mem_singleton] at hi''; omega
      · exact Nat.lt_succ_of_lt (h.fresh i (List.mem_append_right _ hi'))
    · intro i hi
      rcases List.mem_append.1 hi with hi' | hi'
      · exact Nat.lt_succ_of_lt (h.runFresh i hi')
      · rw [List.mem_singleton] at hi'; omega
    · rw [List.nodup_append]
      exact ⟨h.runNodup, List.nodup_singleton _,
        fun a ha hb => by
          rw [List.mem_singleton] at hb
          subst hb
          exact absurd (h.runFresh _ ha) (lt_irrefl _)⟩
    · intro i _ hi
      rw [hq] at hi
      exact List.not_mem_nil i hi
    · intro i hi
      rcases List.mem_append.1 hi with hi' | hi'
      · exact List.mem_append_left _ (h.runStart i hi')
      · exact List.mem_append_right _ hi'
    · intro i hi
      rcases List.mem_append.1 hi with hi' | hi'
      · exact h.chanRun i hi'
      · rw [List.mem_singleton] at hi'
        subst hi'
        exact h.chanFresh _ (le_refl _)
    · intro i hi
      exact h.chanQ i hi
    · intro i hi
      exact h.chanFresh i (by omega)
    · exact h.chanBeh
    · intro n hn
      rw [hn, ltLim_fin] at hg
      rw [List.length_append, List.length_singleton]
      push_cast
      omega
  case isFalse hg =>
    have hg' : ltLim p.runSet.length p.limit = false := by
      cases hb : ltLim p.runSet.length p.limit
      · rfl
      · exact absurd hb hg
    refine ⟨?_, ?_, ?_, ?_, ?_, ?_, ?_, ?_, ?_, ?_, ?_, ?_⟩ <;> dsimp only
    · intro _; exact hg'
    · rw [← List.append_assoc, List.pairwise_append]
      refine ⟨h.ordered, List.pairwise_singleton _ _, ?_⟩
      intro a ha b hb
      rw [List.mem_singleton] at hb
      subst hb
      exact h.fresh a ha
    · intro i hi
      rw [← List.append_assoc] at hi
      rcases List.mem_append.1 hi with hi' | hi'
      · exact Nat.lt_succ_of_lt (h.fresh i hi')
      · rw [List.mem_singleton] at hi'; omega
    · intro i hi
      exact Nat.lt_succ_of_lt (h.runFresh i hi)
    · exact h.runNodup
    · intro i hi hmem
      rcases List.mem_append.1 hmem with hm | hm
      · exact h.runQ i hi hm
      · rw [List.mem_singleton] at hm
        subst hm
        exact absurd (h.runFresh _ hi) (lt_irrefl _)
    · exact h.runStart
    · exact h.chanRun
    · intro i hi
      rcases List.mem_append.1 hi with hi' | hi'
      · exact h.chanQ i hi'
      · rw [List.mem_singleton] at hi'
        subst hi'
        exact h.chanFresh _ (le_refl _)
    · intro i hi
      exact h.chanFresh i (by omega)
    · exact h.chanBeh
    · exact h.bound

theorem poolInv_settle {beh : Nat → Except ε α} {p : Pool ε α} (h : PoolInv beh p)
    (id : Nat) : PoolInv beh (PromisePool.settle beh p id) := by
  unfold PromisePool.settle
  split
  case isFalse => exact h
  case isTrue hid =>
    have hlen : (p.runSet.erase id).length = p.runSet.length - 1 :=
      List.length_erase_of_mem hid
    have hpos : 0 < p.runSet.length := List.length_pos_of_mem hid
    have her : ∀ i ∈ p.runSet.erase id, i ∈ p.runSet := fun i hi => List.mem_of_mem_erase hi
    have hner : ∀ i ∈ p.runSet.erase id, i ≠ id := fun i hi =>
      ((h.runNodup.mem_erase_iff).1 hi).1
    have hidq : id ∉ p.queue := h.runQ id hid
    have hchan : ∀ i, i ≠ id →
        (if i = id then some (beh id) else p.channel i) = p.channel i :=
      fun i hi => if_neg hi
    unfold PromisePool.release
    dsimp only
    split
    case h_1 heq =>
      refine ⟨?_, ?_, ?_, ?_, ?_, ?_, ?_, ?_, ?_, ?_, ?_, ?_⟩ <;> dsimp only
      · intro hne; exact absurd heq hne
      · exact h.ordered
      · exact h.fresh
      · intro i hi; exact h.runFresh i (her i hi)
      · exact h.runNodup.erase id
      · intro i hi; exact h.runQ i (her i hi)
      · intro i hi; exact h.runStart i (her i hi)
      · intro i hi
        rw [hchan i (hner i hi)]
        exact h.chanRun i (her i hi)
      · intro i hi
        have : i ≠ id := fun he => hidq (he ▸ hi)
        rw [hchan i this]
        exact h.chanQ i hi
      · intro i hi
        have : i ≠ id := fun he => absurd (h.runFresh id hid) (by omega)
        rw [hchan i this]
        exact h.chanFresh i hi
      · intro i o ho
        by_cases hi : i = id
        · subst hi
          simp only [if_pos rfl] at ho
          exact (Option.some.inj ho).symm
        · rw [hchan i hi] at ho
          exact h.chanBeh i o ho
      · intro n hn
        have := h.bound n hn
        rw [hlen]
        omega
    case h_2 j rest heq =>
      have hjq : j ∈ p.queue := by rw [heq]; exact List.mem_cons_self j rest
      have hjid : j ≠ id := fun he => hidq (he ▸ hjq)
      have hqnodup : p.queue.Nodup := by
        have := h.ordered.sublist (List.sublist_append_right p.startLog p.queue)
        exact this.imp (fun hab => ne_of_lt hab)
      have hjrest : j ∉ rest := by
        have := hqnodup
        rw [heq] at this
        exact (List.nodup_cons.1 this).1
      split
      case isTrue hg =>
        refine ⟨?_, ?_, ?_, ?_, ?_, ?_, ?_, ?_, ?_, ?_, ?_, ?_⟩ <;> dsimp only
        · intro hne
          have hf := h.qFull (by rw [heq]; exact List.cons_ne_nil j rest)
          have hlen2 : (p.runSet.erase id ++ [j]).length = p.runSet.length := by
            rw [List.length_append, List.length_singleton, hlen]
            omega
          rw [hlen2]
          exact hf
        · have := h.ordered
          rw [heq, List.append_cons] at this
          exact this
        · intro i hi
          apply h.fresh
          rw [heq, List.append_cons]
          exact hi
        · intro i hi
          rcases List.mem_append.1 hi with hi' | hi'
          · exact h.runFresh i (her i hi')
          · rw [List.mem_singleton] at hi'
            subst hi'
            exact h.fresh _ (List.mem_append_right _ hjq)
        · rw [List.nodup_append]
          refine ⟨h.runNodup.erase id, List.nodup_singleton _, ?_⟩
          intro a ha hb
          rw [List.mem_singleton] at hb
          subst hb
          exact h.runQ _ (her _ ha) hjq
        · intro i hi hmem
          rcases List.mem_append.1 hi with hi' | hi'
          · exact h.runQ i (her i hi') (by rw [heq]; exact List.mem_cons_of_mem j hmem)
          · rw [List.mem_singleton] at hi'
            subst hi'
            exact hjrest hmem
        · intro i hi
          rcases List.mem_append.1 hi with hi' | hi'
          · exact List.mem_append_left _ (h.runStart i (her i hi'))
          · rw [List.mem_singleton] at hi'
            subst hi'
            exact List.mem_append_right _ (List.mem_singleton_self _)
        · intro i hi
          rcases List.mem_append.1 hi with hi' | hi'
          · rw [hchan i (hner i hi')]
            exact h.chanRun i (her i hi')
          · rw [List.mem_singleton] at hi'
            subst hi'
            rw [hchan _ hjid]
            exact h.chanQ _ hjq
        · intro i hi
          have hiq : i ∈ p.queue := by rw [heq]; exact List.mem_cons_of_mem j hi
          have : i ≠ id := fun he => hidq (he ▸ hiq)
          rw [hchan i this]
          exact h.chanQ i hiq
        · intro i hi
          have : i ≠ id := fun he => absurd (h.runFresh id hid) (by omega)
          rw [hchan i this]
          exact h.chanFresh i hi
        · intro i o ho
          by_cases hi : i = id
          · subst hi
            simp only [if_pos rfl] at ho
            exact (Option.some.inj ho).symm
          · rw [hchan i hi] at ho
            exact h.chanBeh i o ho
        · intro n hn
          rw [hn, ltLim_fin] at hg
          rw [List.length_append, List.length_singleton]
          push_cast
          omega
      case isFalse hg =>
        have hg' : ltLim (p.runSet.erase id).length p.limit = false := by
          cases hb : ltLim (p.runSet.erase id).length p.limit
          · rfl
          · exact absurd hb hg
        refine ⟨?_, ?_, ?_, ?_, ?_, ?_, ?_, ?_, ?_, ?_, ?_, ?_⟩ <;> dsimp only
        · intro _; exact hg'
        · exact h.ordered
        · exact h.fresh
        · intro i hi; exact h.runFresh i (her i hi)
        · exact h.runNodup.erase id
        · intro i hi; exact h.runQ i (her i hi)
        · intro i hi; exact h.runStart i (her i hi)
        · intro i hi
          rw [hchan i (hner i hi)]
          exact h.chanRun i (her i hi)
        · intro i hi
          have : i ≠ id := fun he => hidq (he ▸ hi)
          rw [hchan i this]
          exact h.chanQ i hi
        · intro i hi
          have : i ≠ id := fun he => absurd (h.runFresh id hid) (by omega)
          rw [hchan i this]
          exact h.chanFresh i hi
        · intro i o ho
          by_cases hi : i = id
          · subst hi
            simp only [if_pos rfl] at ho
            exact (Option.some.inj ho).symm
          · rw [hchan i hi] at ho
            exact h.chanBeh i o ho
        · intro n hn
          have := h.bound n hn
          rw [hlen]
          omega

theorem poolInv_step {beh : Nat → Except ε α} {p : Pool ε α} (h : PoolInv beh p)
    (e : Ev) : PoolInv beh (step beh p e) := by
  cases e with
  | acq => exact poolInv_acquire h
  | settle id => exact poolInv_settle h id

theorem poolInv_foldl {beh : Nat → Except ε α} :
    ∀ (evs : List Ev) (p : Pool ε α), PoolInv beh p →
      PoolInv beh (evs.foldl (step beh) p)
  | [], _, h => h
  | e :: evs, p, h => poolInv_foldl evs (step beh p e) (poolInv_step h e)

theorem poolInv_run (beh : Nat → Except ε α) (limit : JSNum) (evs : List Ev) :
    PoolInv beh (run beh limit evs) :=
  poolInv_foldl evs (mkPool limit) (poolInv_mkPool beh limit)

section Sanity

example : (run beh0 (.fin 2)
    [.acq, .acq, .acq, .acq, .acq]).startLog = [0, 1] := by decide

example : (run beh0 (.fin 2)
    [.acq, .acq, .acq, .acq, .acq, .settle 1]).startLog = [0, 1, 2] := by decide

example : (run beh0 (.fin 2)
    [.acq, .acq, .acq, .acq, .acq, .settle 1]).queue = [3, 4] := by decide

example : (run beh0 (.fin 0) [.acq, .settle 0]).queue = [0] := by decide

example : (run beh0 (.fin 2)
    [.acq, .settle 0]).channel 0 = some (.ok 7) := by decide

example : SmartPromise.all ([Inp.fn (.returns (.ok 1)), Inp.fn (.throws 5),
    Inp.prom (.ok 2)] : List (Inp Nat Nat)) [2, 1, 0] = .error 5 := by decide

example : SmartPromise.all ([Inp.prom (Except.ok 1), Inp.fn (.returns (.ok 2))] :
    List (Inp Nat Nat)) [1, 0] = .ok [1, 2] := by decide

example : SmartPromise.allSettled ([Inp.fn (.returns (.ok 1)), Inp.fn (.throws 5)] :
    List (Inp Nat Nat)) = .ok [.fulfilled 1, .rejected 5] := by decide

example : SmartPromise.sequential ([Inp.fn (.returns (.ok 1)), Inp.fn (.throws 5),
    Inp.fn (.returns (.ok 2))] : List (Inp Nat Nat)) = (.error 5, [0, 1]) := by decide

example : SmartPromise.sequential ([] : List (Inp Nat Nat)) = (.ok [], []) := by decide

end Sanity

/-! ## Preservation of the configured limit -/

theorem limit_acquire (p : Pool ε α) : (PromisePool.acquire p).limit = p.limit := by
  unfold PromisePool.acquire
  split <;> rfl

theorem limit_release (p : Pool ε α) (id : Nat) :
    (PromisePool.release p id).limit = p.limit := by
  unfold PromisePool.release
  dsimp only
  split
  · rfl
  · split <;> rfl

theorem limit_settle (beh : Nat → Except ε α) (p : Pool ε α) (id : Nat) :
    (PromisePool.settle beh p id).limit = p.limit := by
  unfold PromisePool.settle
  split
  · exact limit_release _ _
  · rfl

theorem limit_step (beh : Nat → Except ε α) (p : Pool ε α) (e : Ev) :
    (step beh p e).limit = p.limit := by
  cases e with
  | acq => exact limit_acquire p
  | settle id => exact limit_settle beh p id

theorem limit_foldl (beh : Nat → Except ε α) :
    ∀ (evs : List Ev) (p : Pool ε α), (evs.foldl (step beh) p).limit = p.limit
  | [], _ => rfl
  | e :: evs, p => by
    rw [List.foldl_cons, limit_foldl beh evs (step beh p e), limit_step]

theorem limit_run (beh : Nat → Except ε α) (limit : JSNum) (evs : List Ev) :
    (run beh limit evs).limit = limit :=
  limit_foldl beh evs (mkPool limit)

/-! ## Once a result channel is written, it never changes -/

theorem chan_stable_step {beh : Nat → Except ε α} {p : Pool ε α} (h : PoolInv beh p)
    (e : Ev) {i : Nat} {o : Except ε α} (hc : p.channel i = some o) :
    (step beh p e).channel i = some o := by
  cases e with
  | acq =>
    show (PromisePool.acquire p).channel i = some o
    unfold PromisePool.acquire
    split <;> exact hc
  | settle id =>
    show (PromisePool.settle beh p id).channel i = some o
    unfold PromisePool.settle
    split
    case isFalse => exact hc
    case isTrue hid =>
      have hne : i ≠ id := by
        intro he
        rw [he, h.chanRun id hid] at hc
        exact Option.noConfusion hc
      unfold PromisePool.release
      dsimp only
      split
      · show (if i = id then some (beh id) else p.channel i) = some o
        rw [if_neg hne]
        exact hc
      · split
        · show (if i = id then some (beh id) else p.channel i) = some o
          rw [if_neg hne]
          exact hc
        · show (if i = id then some (beh id) else p.channel i) = some o
          rw [if_neg hne]
          exact hc

theorem chan_stable_foldl {beh : Nat → Except ε α} :
    ∀ (evs : List Ev) (p : Pool ε α) {i : Nat} {o : Except ε α}, PoolInv beh p →
      p.channel i = some o → (evs.foldl (step beh) p).channel i = some o
  | [], _, _, _, _, hc => hc
  | e :: evs, p, _, _, h, hc =>
    chan_stable_foldl evs (step beh p e) (poolInv_step h e) (chan_stable_step h e hc)

/-! ## Claim theorems -/

/-- C1: for every pool with a finite limit `L ≥ 1` and every sequence of
acquire calls and task settlements, the `running` counter (the number of
admissions in the running state) never exceeds `L`. -/
theorem running_never_exceeds_limit (L : Int) (hL : 1 ≤ L) (beh : Nat → Except ε α)
    (evs : List Ev) : ((run beh (.fin L) evs).runSet.length : Int) ≤ L := by
  have hinv := poolInv_run beh (.fin L) evs
  have hb := hinv.bound L (limit_run beh (.fin L) evs)
  have hmax : max L 0 = L := max_eq_left (by omega)
  rw [hmax] at hb
  exact hb

theorem running_never_exceeds_limit_witness :
    (1 : Int) ≤ 2 ∧ ((run beh0 (.fin 2) [.acq, .acq, .acq]).runSet.length : Int) ≤ 2 :=
  ⟨by norm_num, running_never_exceeds_limit 2 (by norm_num) beh0 [.acq, .acq, .acq]⟩

/-- C2: admissions begin running in exactly the order they were submitted
(the start log is always increasing in admission id, so there is no
reordering); concretely, with limit 2 and submissions `T0..T4`, only `T0`
and `T1` start immediately, `T2` starts exactly when one of them settles,
`T3` at the next settlement, and `T4` at the one after. -/
theorem fifo_start_order :
    (∀ (ε α : Type) (beh : Nat → Except ε α) (limit : JSNum) (evs : List Ev),
        List.Pairwise (· < ·) (run beh limit evs).startLog)
    ∧ (run beh0 (.fin 2) [.acq, .acq, .acq, .acq, .acq]).startLog = [0, 1]
    ∧ (run beh0 (.fin 2) [.acq, .acq, .acq, .acq, .acq, .settle 1]).startLog = [0, 1, 2]
    ∧ (run beh0 (.fin 2)
        [.acq, .acq, .acq, .acq, .acq, .settle 1, .settle 0]).startLog = [0, 1, 2, 3]
    ∧ (run beh0 (.fin 2)
        [.acq, .acq, .acq, .acq, .acq, .settle 1, .settle 0, .settle 2]).startLog
        = [0, 1, 2, 3, 4] := by
  refine ⟨?_, by decide, by decide, by decide, by decide⟩
  intro ε α beh limit evs
  have h := (poolInv_run beh limit evs).ordered
  exact h.sublist (List.sublist_append_left _ _)

/-- C3: the future returned by `acquire` settles with exactly the task's
own outcome: whatever outcome is ever written to an admission's result
channel is identically `beh i`, and `execute`'s `try`/`catch` collapses a
fulfilment to the identical value and both an asynchronous rejection and a
synchronous throw to the identical error (a synchronous throw is a task
failure, not a pool fault). -/
theorem acquire_forwards_outcome :
    (∀ (ε α : Type) (beh : Nat → Except ε α) (limit : JSNum) (evs : List Ev)
        (i : Nat) (o : Except ε α),
        (run beh limit evs).channel i = some o → o = beh i)
    ∧ (∀ (ε α : Type) (e : ε),
        executeOutcome (.throws e) = (Except.error e : Except ε α))
    ∧ (∀ (ε α : Type) (v : α),
        executeOutcome (.returns (.ok v)) = (Except.ok v : Except ε α))
    ∧ (∀ (ε α : Type) (e : ε),
        executeOutcome (.returns (.error e)) = (Except.error e : Except ε α)) := by
  refine ⟨?_, fun _ _ _ => rfl, fun _ _ _ => rfl, fun _ _ _ => rfl⟩
  intro ε α beh limit evs i o hc
  exact (poolInv_run beh limit evs).chanBeh i o hc

theorem acquire_forwards_outcome_witness :
    (run beh0 (.fin 1) [.acq, .settle 0]).channel 0 = some (.ok 7)
    ∧ Except.ok 7 = beh0 0 :=
  ⟨by decide, acquire_forwards_outcome.1 Nat Nat beh0 (.fin 1) [.acq, .settle 0] 0
    (.ok 7) (by decide)⟩

/-- C9: each admission's result channel is written at most once and is
immutable afterwards (an outcome observed after some events persists
through any further events), and each queued start action is dequeued and
executed at most once (the start log never repeats an admission). -/
theorem channel_write_once :
    (∀ (ε α : Type) (beh : Nat → Except ε α) (limit : JSNum) (evs evs' : List Ev)
        (i : Nat) (o : Except ε α),
        (run beh limit evs).channel i = some o →
        (run beh limit (evs ++ evs')).channel i = some o)
    ∧ (∀ (ε α : Type) (beh : Nat → Except ε α) (limit : JSNum) (evs : List Ev),
        ((run beh limit evs).startLog).Nodup) := by
  constructor
  · intro ε α beh limit evs evs' i o hc
    rw [run, List.foldl_append]
    exact chan_stable_foldl evs' _ (poolInv_run beh limit evs) hc
  · intro ε α beh limit evs
    have h := (poolInv_run beh limit evs).ordered
    have h' := h.sublist (List.sublist_append_left _ _)
    exact h'.imp (fun hab => ne_of_lt hab)

theorem channel_write_once_witness :
    (run beh0 (.fin 1) [.acq, .settle 0, .acq]).channel 0 = some (.ok 7) :=
  channel_write_once.1 Nat Nat beh0 (.fin 1) [.acq, .settle 0] [.acq] 0 (.ok 7)
    (by decide)

/-! ## Pools with a non-positive finite limit -/

theorem ltLim_nonpos {n : Int} (hn : n ≤ 0) (r : Nat) : ltLim r (.fin n) = false := by
  simp only [ltLim, decide_eq_false_iff_not]
  omega

/-- The state of a pool whose limit never lets anything start: nothing has
run, every admission so far sits in the queue in submission order, and no
result channel has been written. -/
def ZeroState (p : Pool ε α) : Prop :=
  p.runSet = [] ∧ p.startLog = [] ∧ p.queue = List.range p.nextId
    ∧ ∀ i, p.channel i = none

theorem zeroState_step {n : Int} (hn : n ≤ 0) {p : Pool ε α} (hp : p.limit = .fin n)
    (hz : ZeroState p) (beh : Nat → Except ε α) (e : Ev) : ZeroState (step beh p e) := by
  obtain ⟨hr, hs, hq, hc⟩ := hz
  cases e with
  | acq =>
    show ZeroState (PromisePool.acquire p)
    unfold PromisePool.acquire
    rw [if_neg]
    · exact ⟨hr, hs, by dsimp only; rw [hq, ← List.range_succ], hc⟩
    · rw [hr, hp]
      simp [ltLim_nonpos hn]
  | settle id =>
    show ZeroState (PromisePool.settle beh p id)
    unfold PromisePool.settle
    rw [if_neg]
    · exact ⟨hr, hs, hq, hc⟩
    · rw [hr]
      exact List.not_mem_nil id

theorem zeroState_foldl {n : Int} (hn : n ≤ 0) {beh : Nat → Except ε α} :
    ∀ (evs : List Ev) (p : Pool ε α), p.limit = .fin n → ZeroState p →
      ZeroState (evs.foldl (step beh) p)
  | [], _, _, hz => hz
  | e :: evs, p, hp, hz =>
    zeroState_foldl hn evs (step beh p e) (by rw [limit_step]; exact hp)
      (zeroState_step hn hp hz beh e)

theorem zeroState_run {n : Int} (hn : n ≤ 0) (beh : Nat → Except ε α) (evs : List Ev) :
    ZeroState (run beh (.fin n) evs) :=
  zeroState_foldl hn evs (mkPool (.fin n)) rfl ⟨rfl, rfl, rfl, fun _ => rfl⟩

/-- C10: in a pool whose limit is 0 or negative (also when such a value
reaches the pool unvalidated through `setDefaultConcurrency` and a
combinator call with no explicit concurrency), every `acquire` appends the
admission to the queue (in submission order), nothing ever starts, no
running task exists to trigger a release, and no returned future ever
settles. -/
theorem nonpositive_limit_never_starts (n : Int) (hn : n ≤ 0) :
    (∀ (ε α : Type) (beh : Nat → Except ε α) (evs : List Ev),
        (run beh (.fin n) evs).runSet = []
        ∧ (run beh (.fin n) evs).startLog = []
        ∧ (run beh (.fin n) evs).queue = List.range (run beh (.fin n) evs).nextId
        ∧ ∀ i, (run beh (.fin n) evs).channel i = none)
    ∧ SmartPromise.effectiveConcurrency none
        (SmartPromise.setDefaultConcurrency (.fin n)) = .fin n :=
  ⟨fun _ _ beh evs => zeroState_run hn beh evs, rfl⟩

theorem nonpositive_limit_never_starts_witness :
    (0 : Int) ≤ 0
    ∧ (run beh0 (.fin 0) [.acq, .acq, .settle 0]).startLog = []
    ∧ (run beh0 (.fin 0) [.acq, .acq, .settle 0]).channel 0 = none :=
  ⟨le_refl 0,
   ((nonpositive_limit_never_starts 0 (le_refl 0)).1 Nat Nat beh0
      [.acq, .acq, .settle 0]).2.1,
   ((nonpositive_limit_never_starts 0 (le_refl 0)).1 Nat Nat beh0
      [.acq, .acq, .settle 0]).2.2.2 0⟩

/-- C4 counterexample: constructing a pool with limit 0 does not fail fast
and is not reported — the constructor stores the limit and returns a
normal pool, and an admitted task is silently queued, never started, its
future never settled (even after a spurious settle event). -/
theorem zero_limit_accepted_cex :
    (mkPool (.fin 0) : Pool Nat Nat).limit = .fin 0
    ∧ (run beh0 (.fin 0) [.acq]).queue = [0]
    ∧ (run beh0 (.fin 0) [.acq]).startLog = []
    ∧ (run beh0 (.fin 0) [.acq, .settle 0]).startLog = []
    ∧ (run beh0 (.fin 0) [.acq, .settle 0]).channel 0 = none :=
  ⟨rfl, by decide, by decide, by decide, by decide⟩

/-- C4 (amended): constructing a pool with a concurrency limit of 0 or a
negative number is accepted without any error (the constructor stores the
limit unvalidated), and such a pool silently never starts any admitted
task — every admission just accumulates in the queue. -/
theorem nonpositive_limit_construction (n : Int) (hn : n ≤ 0) :
    ∀ (ε α : Type) (beh : Nat → Except ε α) (evs : List Ev),
      (mkPool (.fin n) : Pool ε α).limit = .fin n
      ∧ (run beh (.fin n) evs).startLog = []
      ∧ (run beh (.fin n) evs).queue = List.range (run beh (.fin n) evs).nextId :=
  fun _ _ beh evs =>
    ⟨rfl, (zeroState_run hn beh evs).2.1, (zeroState_run hn beh evs).2.2.1⟩

theorem nonpositive_limit_construction_witness :
    (-1 : Int) ≤ 0
    ∧ (mkPool (.fin (-1)) : Pool Nat Nat).limit = .fin (-1)
    ∧ (run beh0 (.fin (-1)) [.acq, .acq]).startLog = [] :=
  ⟨by norm_num,
   (nonpositive_limit_construction (-1) (by norm_num) Nat Nat beh0 [.acq, .acq]).1,
   (nonpositive_limit_construction (-1) (by norm_num) Nat Nat beh0 [.acq, .acq]).2.1⟩

/-! ## Combinator claims -/

theorem mapM_id_map_ok (vs : List α) :
    ((List.map Except.ok vs).mapM (fun o => o) : Except ε (List α)) = .ok vs := by
  induction vs with
  | nil => rfl
  | cons v vs ih =>
    rw [List.map_cons, List.mapM_cons, ih]
    rfl

/-- C5: fail-fast join.  Under any completion order of the pooled tasks,
if some task rejects then the combined future rejects with the identical
reason of a rejecting task, and if every task fulfils the combined future
fulfils with the values in original input order. -/
theorem all_semantics :
    ∀ (ε α : Type) (values : List (Inp ε α)) (order : List Nat),
      order.Perm (List.range values.length) →
      ((∃ (i : Nat) (e : ε), (taskOutcomes values)[i]? = some (Except.error e)) →
        ∃ (j : Nat) (e' : ε), (taskOutcomes values)[j]? = some (Except.error e')
          ∧ SmartPromise.all values order = .error e')
      ∧ (∀ vs, taskOutcomes values = List.map Except.ok vs →
          SmartPromise.all values order = .ok vs) := by
  intro ε α values order hperm
  constructor
  · rintro ⟨i, e, hi⟩
    have hilt : i < (taskOutcomes values).length := by
      by_contra hge
      rw [List.getElem?_eq_none (by omega)] at hi
      exact Option.noConfusion hi
    have himem : i ∈ order := by
      rw [hperm.mem_iff, List.mem_range]
      rw [taskOutcomes, List.length_map] at hilt
      exact hilt
    have hne : firstRejection (taskOutcomes values) order ≠ none := by
      intro hnone
      rw [firstRejection, List.findSome?_eq_none_iff] at hnone
      have h2 : (match (taskOutcomes values)[i]? with
          | some (.error e) => some e
          | _ => none) = (none : Option ε) := hnone i himem
      rw [hi] at h2
      exact Option.noConfusion h2
    obtain ⟨e', he'⟩ := Option.ne_none_iff_exists'.1 hne
    obtain ⟨j, hjmem, hfj⟩ := List.exists_of_findSome?_eq_some he'
    have hfj' : (match (taskOutcomes values)[j]? with
        | some (.error e) => some e
        | _ => none) = some e' := hfj
    have hj : (taskOutcomes values)[j]? = some (Except.error e') := by
      cases hoj : (taskOutcomes values)[j]? with
      | none =>
        rw [hoj] at hfj'
        exact absurd hfj' (by simp)
      | some o =>
        cases o with
        | ok v =>
          rw [hoj] at hfj'
          exact absurd hfj' (by simp)
        | error e2 =>
          rw [hoj] at hfj'
          simp only [Option.some.injEq] at hfj'
          rw [hfj']
    exact ⟨j, e', hj, by rw [SmartPromise.all, promiseAll, he']⟩
  · intro vs hvs
    have hnone : firstRejection (taskOutcomes values) order = none := by
      rw [firstRejection, List.findSome?_eq_none_iff]
      intro x _
      rw [hvs, List.getElem?_map]
      cases vs[x]? with
      | none => rfl
      | some v => rfl
    rw [SmartPromise.all, promiseAll, hnone, hvs]
    exact mapM_id_map_ok vs

theorem all_semantics_witness :
    ([2, 1, 0] : List Nat).Perm (List.range 3)
    ∧ (∃ (j : Nat) (e' : Nat), (taskOutcomes ([Inp.prom (Except.ok 1), Inp.fn (.throws 5),
          Inp.prom (Except.ok 2)] : List (Inp Nat Nat)))[j]? = some (Except.error e')
        ∧ SmartPromise.all ([Inp.prom (Except.ok 1), Inp.fn (.throws 5),
          Inp.prom (Except.ok 2)] : List (Inp Nat Nat)) [2, 1, 0] = .error e') :=
  ⟨by decide,
   (all_semantics Nat Nat [Inp.prom (Except.ok 1), Inp.fn (.throws 5),
      Inp.prom (Except.ok 2)] [2, 1, 0] (by decide)).1 ⟨1, 5, by decide⟩⟩

/-- C6: settle-all join.  The combined future always fulfils, with one
tagged outcome per input in original input order: fulfilled-with-value for
tasks that fulfil, rejected-with-reason for tasks that reject. -/
theorem allSettled_semantics :
    ∀ (ε α : Type) (values : List (Inp ε α)),
      (SmartPromise.allSettled values).isOk = true
      ∧ ∀ l, SmartPromise.allSettled values = .ok l →
          l.length = values.length
          ∧ (∀ (i : Nat) (v : α), (taskOutcomes values)[i]? = some (Except.ok v) →
              l[i]? = some (Settled.fulfilled v))
          ∧ (∀ (i : Nat) (e : ε), (taskOutcomes values)[i]? = some (Except.error e) →
              l[i]? = some (Settled.rejected e)) := by
  intro ε α values
  refine ⟨rfl, ?_⟩
  intro l hl
  have hl2 : (Except.ok ((taskOutcomes values).map toSettled)
      : Except ε (List (Settled ε α))) = .ok l := hl
  have hleq : l = (taskOutcomes values).map toSettled := (Except.ok.inj hl2).symm
  subst hleq
  refine ⟨?_, ?_, ?_⟩
  · rw [List.length_map, taskOutcomes, List.length_map]
  · intro i v hi
    rw [List.getElem?_map, hi]
    rfl
  · intro i e hi
    rw [List.getElem?_map, hi]
    rfl

theorem allSettled_semantics_witness :
    SmartPromise.allSettled ([Inp.fn (.returns (.ok 1)), Inp.fn (.throws 5)]
      : List (Inp Nat Nat)) = .ok [Settled.fulfilled 1, Settled.rejected 5]
    ∧ ([Settled.fulfilled 1, Settled.rejected 5] : List (Settled Nat Nat))[1]?
        = some (.rejected 5) :=
  ⟨by decide,
   ((allSettled_semantics Nat Nat [Inp.fn (.returns (.ok 1)), Inp.fn (.throws 5)]).2
      [Settled.fulfilled 1, Settled.rejected 5] (by decide)).2.2 1 5 (by decide)⟩

theorem except_map_error {ε α β : Type} (f : α → β) (e : ε) :
    Except.map f (Except.error e : Except ε α) = Except.error e := rfl

theorem seqGo_nil (i : Nat) :
    SmartPromise.seqGo i ([] : List (Inp ε α)) = (.ok [], []) := rfl

theorem seqGo_cons (i : Nat) (v : Inp ε α) (rest : List (Inp ε α)) :
    SmartPromise.seqGo i (v :: rest) =
      match executeOutcome (normalizeInput v) with
      | .error e => (.error e, [i])
      | .ok r => ((SmartPromise.seqGo (i + 1) rest).1.map (fun l => r :: l),
                  i :: (SmartPromise.seqGo (i + 1) rest).2) := rfl

theorem seqGo_error {ε α : Type} (e : ε) :
    ∀ (pre : List (Inp ε α)) (v : Inp ε α) (rest : List (Inp ε α)) (i : Nat),
      (∀ u ∈ pre, ∃ w, executeOutcome (normalizeInput u) = .ok w) →
      executeOutcome (normalizeInput v) = .error e →
      SmartPromise.seqGo i (pre ++ v :: rest) = (.error e, List.range' i (pre.length + 1))
  | [], v, rest, i, _, hv => by
    rw [List.nil_append, seqGo_cons, hv]
    simp [List.range'_one]
  | u :: pre, v, rest, i, hpre, hv => by
    obtain ⟨w, hw⟩ := hpre u (List.mem_cons_self u pre)
    have ih := seqGo_error e pre v rest (i + 1)
      (fun x hx => hpre x (List.mem_cons_of_mem u hx)) hv
    rw [List.cons_append, seqGo_cons, hw, ih]
    simp [List.range'_succ, List.length_cons, except_map_error]

/-- C7: sequential runner.  If the tasks before position `i` all fulfil
and the task at position `i` rejects (or throws) with reason `e`, the
combined future rejects with the identical `e`, the tasks before `i` were
started one at a time strictly in input order, and no task after position
`i` is ever started. -/
theorem sequential_semantics :
    ∀ (ε α : Type) (pre : List (Inp ε α)) (v : Inp ε α) (e : ε) (rest : List (Inp ε α)),
      (∀ u ∈ pre, ∃ w, executeOutcome (normalizeInput u) = .ok w) →
      executeOutcome (normalizeInput v) = .error e →
      SmartPromise.sequential (pre ++ v :: rest)
        = (.error e, List.range (pre.length + 1)) := by
  intro ε α pre v e rest hpre hv
  rw [SmartPromise.sequential, List.range_eq_range']
  exact seqGo_error e pre v rest 0 hpre hv

theorem sequential_semantics_witness :
    SmartPromise.sequential ([Inp.fn (.returns (.ok 1)), Inp.fn (.throws 5),
      Inp.fn (.returns (.ok 2))] : List (Inp Nat Nat)) = (.error 5, [0, 1]) := by
  have h := sequential_semantics Nat Nat [Inp.fn (.returns (.ok 1))]
    (Inp.fn (.throws 5)) 5 [Inp.fn (.returns (.ok 2))]
    (by
      intro u hu
      rw [List.mem_singleton] at hu
      subst hu
      exact ⟨1, rfl⟩)
    rfl
  have h2 : List.range (([Inp.fn (TaskBeh.returns (Except.ok 1))]
      : List (Inp Nat Nat)).length + 1) = [0, 1] := by decide
  rw [h2] at h
  exact h

/-- C8: empty input to any combinator yields an immediately fulfilled
empty result, and `createPooledTasks` performs no admission — the freshly
built pool is left in its initial state. -/
theorem empty_input_immediate :
    ∀ (ε α : Type) (order : List Nat) (c : JSNum),
      SmartPromise.all ([] : List (Inp ε α)) order = .ok []
      ∧ SmartPromise.allSettled ([] : List (Inp ε α)) = .ok []
      ∧ SmartPromise.sequential ([] : List (Inp ε α)) = (.ok [], [])
      ∧ poolAfterCreate c ([] : List (Inp ε α)) = mkPool c := by
  intro ε α order c
  refine ⟨?_, rfl, rfl, rfl⟩
  have hnone : firstRejection (taskOutcomes ([] : List (Inp ε α))) order = none := by
    rw [firstRejection, List.findSome?_eq_none_iff]
    intro x _
    rfl
  rw [SmartPromise.all, promiseAll, hnone]
  rfl
